import Mathlib

/-!
# Verification of the `FileManager` core of `app_01.py`

This file shallow-embeds the pure core of the Streamlit application
`app_01.py`: the text-to-files parser `FileManager.parse_data`, the
file-type extraction `FileManager.get_file_types`, and the archive
builder `FileManager.create_zip_in_memory`.

Strings are embedded as `List Char` (`Str`); Python's `str.splitlines`,
`str.split(sep)` and dict assignment are transcribed as executable Lean
functions.  Line splitting is modelled on the `'\n'` separator (the
newline convention the application's inputs use).  Python exceptions
(the `IndexError` from `line.split("`")[1]` on a delimiter line without
a backtick, and the `KeyError` from `self.files[file_name]` on a name
missing from the parsed mapping, both reported at the caller's boundary)
are modelled as `Except` error values, named after the error kinds of
the specification (`MalformedDelimiter`, `ContractViolation`).
-/

deriving instance DecidableEq for Except

namespace App01

abbrev Str := List Char

/-- The backtick character used by the delimiter format. -/
def btChar : Char := Char.ofNat 96

/-- Splitting a character list at every occurrence of `c`
(the semantics of Python `str.split(sep)` for a one-character `sep`):
the result is the list of maximal `c`-free chunks, with one chunk per
gap, so it always has `count c + 1` elements and is never empty. -/
def splitOnChar (c : Char) : Str → List Str
  | [] => [[]]
  | a :: as =>
    match splitOnChar c as with
    | [] => if a = c then [[], []] else [[a]]
    | h :: t => if a = c then [] :: h :: t else (a :: h) :: t

/-- Python `str.splitlines` restricted to the `'\n'` terminator:
split at every `'\n'` and drop the trailing empty chunk, so that
`"".splitlines() = []` and `"a\n".splitlines() = ["a"]`. -/
def pySplitLines (s : Str) : List Str :=
  let parts := splitOnChar '\n' s
  if parts.getLast? = some [] then parts.dropLast else parts

/-- The delimiter test of `parse_data`: `line.startswith("### File:")`. -/
def isDelim (line : Str) : Bool :=
  List.isPrefixOf ("### File:".data) line

/-- The name extraction of `parse_data`: `line.split("`")[1]`, which is
`none` exactly when the indexing would raise Python's `IndexError`. -/
def extractName (line : Str) : Option Str :=
  (splitOnChar btChar line).get? 1

/-- The parser's files mapping: an insertion-ordered association list,
mirroring a Python `dict`. -/
abbrev Dict := List (Str × Str)

/-- Python dict assignment `d[k] = v`: replace the value at an existing
key in place, otherwise append the new pair at the end. -/
def dictInsert : Dict → Str → Str → Dict
  | [], n, v => [(n, v)]
  | p :: ps, n, v => if p.1 = n then (n, v) :: ps else p :: dictInsert ps n v

/-- Python dict lookup `d.get(k)`: the value at the first (under
`dictInsert`, the only) occurrence of the key. -/
def dictLookup : Dict → Str → Option Str
  | [], _ => none
  | p :: ps, k => if p.1 = k then some p.2 else dictLookup ps k

/-- The parse failure of `parse_data`: `line.split("`")[1]` raising
`IndexError` on a delimiter line, surfaced as the specification's
`MalformedDelimiter` error kind. -/
inductive ParseError where
  | malformedDelimiter
  deriving DecidableEq, Repr

/-- The loop of `FileManager.parse_data`, one step per line:
a line starting with `"### File:"` commits the accumulated
`(current_file_name, current_file_content)` pair when the current name
is non-empty, then takes `line.split("`")[1]` as the new current name
(failing when the line has no backtick) and resets the accumulator;
any other line is appended to the accumulator followed by `'\n'`.
After the last line the accumulated pair is committed when the current
name is non-empty. -/
def parseLines (files : Dict) : List Str → Str → Str → Except ParseError Dict
  | [], curName, curContent =>
    .ok (if curName ≠ [] then dictInsert files curName curContent else files)
  | line :: rest, curName, curContent =>
    if isDelim line then
      match extractName line with
      | none => .error .malformedDelimiter
      | some newName =>
        parseLines (if curName ≠ [] then dictInsert files curName curContent else files)
          rest newName []
    else
      parseLines files rest curName (curContent ++ line ++ ['\n'])

/-- `FileManager.parse_data`: split the raw data into lines and run the
parsing loop, starting from the `FileManager`'s current `self.files`
mapping (the method updates the existing dict, it does not clear it). -/
def parse_data (files : Dict) (raw : Str) : Except ParseError Dict :=
  parseLines files (pySplitLines raw) [] []

/-- `FileManager.get_file_types`:
`set(file_name.split('.')[-1] for file_name in self.files)`. -/
def get_file_types (files : Dict) : Finset Str :=
  (files.map (fun p => ((splitOnChar '.' p.1).getLastD []))).toFinset

/-- The archive failure of `create_zip_in_memory`:
`self.files[file_name]` raising `KeyError` for a selected name absent
from the mapping, surfaced as the specification's `ContractViolation`
error kind; the original catches it at the method boundary instead of
letting it crash the caller. -/
inductive ArchiveError where
  | contractViolation
  deriving DecidableEq, Repr

/-- The loop of `FileManager.create_zip_in_memory`: write one archive
entry `(file_name, self.files[file_name])` per selected name, failing
on a name absent from the mapping. -/
def zipEntries (files : Dict) : List Str → Except ArchiveError (List (Str × Str))
  | [] => .ok []
  | n :: rest =>
    match dictLookup files n with
    | none => .error .contractViolation
    | some c => (zipEntries files rest).map (fun es => (n, c) :: es)

/-- `FileManager.create_zip_in_memory`: the in-memory archive is
modelled as its list of `(name, content)` entries; a failure yields an
error value (caught at the boundary in the original) and no buffer. -/
def create_zip_in_memory (files : Dict) (selected : List Str) :
    Except ArchiveError (List (Str × Str)) :=
  zipEntries files selected

/-! ## Derived descriptions of the parsing loop

`commitsAux` records, in order, the `(name, content)` pairs the loop of
`parse_data` commits into `self.files`; `applyCommits` replays them by
dict assignment.  The bridge theorem `parseLines_eq_commitsAux` below
proves that `parse_data` is exactly `commitsAux` followed by
`applyCommits`. -/

def commitsAux : List Str → Str → Str → Except ParseError (List (Str × Str))
  | [], n, c => .ok (if n ≠ [] then [(n, c)] else [])
  | line :: rest, n, c =>
    if isDelim line then
      match extractName line with
      | none => .error .malformedDelimiter
      | some newName =>
        (commitsAux rest newName []).map
          (fun cs => (if n ≠ [] then [(n, c)] else []) ++ cs)
    else
      commitsAux rest n (c ++ line ++ ['\n'])

/-- The committed `(name, content)` pairs of a raw input, in order. -/
def commitsOf (raw : Str) : Except ParseError (List (Str × Str)) :=
  commitsAux (pySplitLines raw) [] []

/-- Replay a list of commits on a files mapping by dict assignment. -/
def applyCommits (files : Dict) (cs : List (Str × Str)) : Dict :=
  cs.foldl (fun d p => dictInsert d p.1 p.2) files

/-- The names extracted at the delimiter lines of a line list, in
order. -/
def delimNames (ls : List Str) : List Str :=
  ls.filterMap (fun l => if isDelim l then extractName l else none)

/-! ## Well-formedness of parse results -/

/-- A content value the parser can accumulate: a concatenation of
newline-terminated lines, none of which is a delimiter line or contains
a newline itself. -/
def ContentWF (c : Str) : Prop :=
  ∃ cls : List Str, (∀ l ∈ cls, isDelim l = false ∧ '\n' ∉ l) ∧
    c = (cls.map (fun l => l ++ ['\n'])).flatten

/-- A file name the parser can commit: non-empty, with no backtick and
no newline. -/
def NameWF (n : Str) : Prop := n ≠ [] ∧ btChar ∉ n ∧ '\n' ∉ n

/-- A well-formed parse result: keys are distinct, names and contents
are well-formed. -/
def DictWF (d : Dict) : Prop :=
  (d.map Prod.fst).Nodup ∧ ∀ p ∈ d, NameWF p.1 ∧ ContentWF p.2

/-! ## Specification-side definitions

These definitions follow the words of the specification, to be compared
with the definitions transcribed from the source. -/

/-- Modelled from the spec: the name of a delimiter line is "the text
strictly between the first and second backtick characters found on that
line. If fewer than two backtick characters are present, the parser
fails with a MalformedDelimiter error." -/
def specName (line : Str) : Except ParseError Str :=
  if 2 ≤ line.count btChar then
    .ok (((line.dropWhile (fun x => x ≠ btChar)).tail).takeWhile (fun x => x ≠ btChar))
  else .error .malformedDelimiter

/-- Modelled from the spec: the parsing loop as the specification
describes it, with names extracted by `specName`. -/
def specCommitsAux : List Str → Str → Str → Except ParseError (List (Str × Str))
  | [], n, c => .ok (if n ≠ [] then [(n, c)] else [])
  | line :: rest, n, c =>
    if isDelim line then
      match specName line with
      | .error e => .error e
      | .ok newName =>
        (specCommitsAux rest newName []).map
          (fun cs => (if n ≠ [] then [(n, c)] else []) ++ cs)
    else
      specCommitsAux rest n (c ++ line ++ ['\n'])

/-- Modelled from the spec: the whole parser as the specification
describes it. -/
def specParse (raw : Str) : Except ParseError Dict :=
  (specCommitsAux (pySplitLines raw) [] []).map (applyCommits [])

/-- Modelled from the spec: "the type is the substring after the last
`.` character; a name with no `.` yields the whole name as its type". -/
def afterLastDot (name : Str) : Str :=
  if '.' ∈ name then (name.reverse.takeWhile (fun x => x ≠ '.')).reverse
  else name

/-- Serialize a files mapping back into the delimiter wire format: for
each entry a `### File: `name`` delimiter line followed by the
content's lines. -/
def serializeFiles (m : Dict) : Str :=
  (m.map (fun p =>
    "### File: ".data ++ btChar :: p.1 ++ btChar :: '\n' :: p.2)).flatten

/-- The delimiter line of the wire format for a given file name. -/
def delimLineFor (n : Str) : Str :=
  "### File: ".data ++ btChar :: n ++ [btChar]

/-- The lines a serialized entry contributes: its delimiter line
followed by its content's lines. -/
def entryLines (p : Str × Str) : List Str :=
  delimLineFor p.1 :: pySplitLines p.2

example : pySplitLines "a\nb\n".data = ["a".data, "b".data] := by decide
example : pySplitLines "".data = [] := by decide
example : parse_data [] "### File: `a/b.txt`\nx\ny".data =
    .ok [("a/b.txt".data, "x\ny\n".data)] := by decide
example : parse_data [] "### File: ``\nx".data = .ok [] := by decide
example : parse_data [] "### File: `abc".data = .ok [("abc".data, [])] := by decide
example : parse_data [] "### File: no backticks\nx".data =
    .error .malformedDelimiter := by decide
example : get_file_types [("a.py".data, []), ("b.py".data, []), ("c.txt".data, []),
    ("README".data, [])] =
    {"py".data, "txt".data, "README".data} := by decide

/-! ## Lemmas about `splitOnChar` -/

theorem exists_splitOnChar_cons (c : Char) (as : Str) :
    ∃ h t, splitOnChar c as = h :: t := by
  induction as with
  | nil => exact ⟨[], [], rfl⟩
  | cons a as ih =>
    obtain ⟨h, t, heq⟩ := ih
    by_cases hac : a = c
    · exact ⟨[], h :: t, by simp [splitOnChar, heq, hac]⟩
    · exact ⟨a :: h, t, by simp [splitOnChar, heq, hac]⟩

theorem splitOnChar_ne_nil (c : Char) (l : Str) : splitOnChar c l ≠ [] := by
  obtain ⟨h, t, heq⟩ := exists_splitOnChar_cons c l
  simp [heq]

theorem head?_splitOnChar (c : Char) (l : Str) :
    (splitOnChar c l).head? = some (l.takeWhile (fun x => x ≠ c)) := by
  induction l with
  | nil => rfl
  | cons a as ih =>
    obtain ⟨h, t, heq⟩ := exists_splitOnChar_cons c as
    have ih' : h = as.takeWhile (fun x => x ≠ c) := by
      rw [heq] at ih; simpa using ih
    by_cases hac : a = c
    · subst hac
      simp [splitOnChar, heq, List.takeWhile_cons]
    · simp [splitOnChar, heq, hac, List.takeWhile_cons, ih']

theorem get?_one_splitOnChar (c : Char) (l : Str) (hc : c ∈ l) :
    (splitOnChar c l).get? 1 =
      some (((l.dropWhile (fun x => x ≠ c)).tail).takeWhile (fun x => x ≠ c)) := by
  induction l with
  | nil => cases hc
  | cons a as ih =>
    obtain ⟨h, t, heq⟩ := exists_splitOnChar_cons c as
    by_cases hac : a = c
    · subst hac
      have hh : h = as.takeWhile (fun x => x ≠ a) := by
        have := head?_splitOnChar a as; rw [heq] at this; simpa using this
      simp only [ne_eq, decide_not] at hh
      simp [splitOnChar, heq, List.dropWhile_cons, hh]
    · have hc' : c ∈ as := by
        rcases List.mem_cons.mp hc with h1 | h2
        · exact absurd h1.symm hac
        · exact h2
      have := ih hc'
      rw [heq] at this
      simp only [splitOnChar, heq]
      simp only [if_neg hac]
      simpa [List.dropWhile_cons, hac] using this

theorem not_mem_of_mem_splitOnChar (c : Char) (l : Str) :
    ∀ ch ∈ splitOnChar c l, c ∉ ch := by
  induction l with
  | nil =>
    intro ch hch
    simp [splitOnChar] at hch
    simp [hch]
  | cons a as ih =>
    obtain ⟨h, t, heq⟩ := exists_splitOnChar_cons c as
    intro ch hch
    by_cases hac : a = c
    · subst hac
      rw [show splitOnChar a (a :: as) = [] :: h :: t by simp [splitOnChar, heq]] at hch
      rcases List.mem_cons.mp hch with rfl | hmem
      · simp
      · exact ih ch (by rw [heq]; exact hmem)
    · rw [show splitOnChar c (a :: as) = (a :: h) :: t by simp [splitOnChar, heq, hac]] at hch
      rcases List.mem_cons.mp hch with rfl | hmem
      · intro hmem2
        rcases List.mem_cons.mp hmem2 with h1 | h2
        · exact hac h1.symm
        · exact ih h (by rw [heq]; simp) h2
      · exact ih ch (by rw [heq]; simp [hmem])

theorem mem_of_mem_splitOnChar (c : Char) (l : Str) :
    ∀ ch ∈ splitOnChar c l, ∀ x ∈ ch, x ∈ l := by
  induction l with
  | nil =>
    intro ch hch
    simp [splitOnChar] at hch
    simp [hch]
  | cons a as ih =>
    obtain ⟨h, t, heq⟩ := exists_splitOnChar_cons c as
    intro ch hch x hx
    by_cases hac : a = c
    · subst hac
      rw [show splitOnChar a (a :: as) = [] :: h :: t by simp [splitOnChar, heq]] at hch
      rcases List.mem_cons.mp hch with rfl | hmem
      · cases hx
      · exact List.mem_cons_of_mem _ (ih ch (by rw [heq]; exact hmem) x hx)
    · rw [show splitOnChar c (a :: as) = (a :: h) :: t by simp [splitOnChar, heq, hac]] at hch
      rcases List.mem_cons.mp hch with rfl | hmem
      · rcases List.mem_cons.mp hx with rfl | hx2
        · exact List.mem_cons_self _ _
        · exact List.mem_cons_of_mem _ (ih h (by rw [heq]; simp) x hx2)
      · exact List.mem_cons_of_mem _ (ih ch (by rw [heq]; simp [hmem]) x hx)

theorem splitOnChar_of_not_mem (c : Char) (l : Str) (hc : c ∉ l) :
    splitOnChar c l = [l] := by
  induction l with
  | nil => rfl
  | cons a as ih =>
    have hac : ¬ a = c := fun h => hc (h ▸ List.mem_cons_self a as)
    have has : c ∉ as := fun h => hc (List.mem_cons_of_mem a h)
    simp [splitOnChar, ih has, hac]

theorem length_splitOnChar (c : Char) (l : Str) :
    (splitOnChar c l).length = l.count c + 1 := by
  induction l with
  | nil => simp [splitOnChar]
  | cons a as ih =>
    obtain ⟨h, t, heq⟩ := exists_splitOnChar_cons c as
    by_cases hac : a = c
    · subst hac
      rw [show splitOnChar a (a :: as) = [] :: h :: t by simp [splitOnChar, heq]]
      rw [heq] at ih
      simp only [List.length_cons, List.count_cons] at *
      simp [ih]
    · rw [show splitOnChar c (a :: as) = (a :: h) :: t by simp [splitOnChar, heq, hac]]
      rw [heq] at ih
      simp only [List.length_cons, List.count_cons] at *
      simp [ih, hac]

theorem eq_of_splitOnChar_singleton (c : Char) (l : Str) (h : Str)
    (heq : splitOnChar c l = [h]) : c ∉ l ∧ h = l := by
  have hlen := length_splitOnChar c l
  rw [heq] at hlen
  simp at hlen
  have hmem : c ∉ l := List.count_eq_zero.mp hlen
  have := splitOnChar_of_not_mem c l hmem
  rw [heq] at this
  simp at this
  exact ⟨hmem, this⟩

theorem splitOnChar_append_cons (c : Char) (l₁ l₂ : Str) (hc : c ∉ l₁) :
    splitOnChar c (l₁ ++ c :: l₂) = l₁ :: splitOnChar c l₂ := by
  induction l₁ with
  | nil =>
    obtain ⟨h, t, heq⟩ := exists_splitOnChar_cons c l₂
    simp [splitOnChar, heq]
  | cons a l₁ ih =>
    have hac : ¬ a = c := fun h => hc (h ▸ List.mem_cons_self a l₁)
    have hl₁ : c ∉ l₁ := fun h => hc (List.mem_cons_of_mem a h)
    have := ih hl₁
    obtain ⟨h, t, heq⟩ := exists_splitOnChar_cons c (l₁ ++ c :: l₂)
    rw [heq] at this
    cases this
    simp [List.cons_append, splitOnChar, heq, hac]

theorem getLast?_splitOnChar (c : Char) (l : Str) :
    (splitOnChar c l).getLast? =
      some ((l.reverse.takeWhile (fun x => x ≠ c)).reverse) := by
  induction l with
  | nil => rfl
  | cons a as ih =>
    obtain ⟨h, t, heq⟩ := exists_splitOnChar_cons c as
    by_cases hac : a = c
    · subst hac
      rw [show splitOnChar a (a :: as) = [] :: h :: t by simp [splitOnChar, heq]]
      rw [List.getLast?_cons_cons, ← heq, ih]
      congr 2
      rw [List.reverse_cons, List.takeWhile_append]
      split
      · rename_i hcond
        rw [( List.takeWhile_prefix _).eq_of_length hcond]
        simp
      · rfl
    · rw [show splitOnChar c (a :: as) = (a :: h) :: t by simp [splitOnChar, heq, hac]]
      cases t with
      | nil =>
        obtain ⟨hcnot, rfl⟩ := eq_of_splitOnChar_singleton c as h heq
        have hall : (a :: h).reverse.takeWhile (fun x => x ≠ c) = (a :: h).reverse := by
          rw [List.takeWhile_eq_self_iff]
          intro x hx
          rcases List.mem_cons.mp (List.mem_reverse.mp hx) with rfl | hx2
          · simpa using hac
          · simp only [decide_eq_true_eq]
            exact fun hxc => hcnot (hxc ▸ hx2)
        rw [hall]
        simp
      | cons t0 ts =>
        have hcas : c ∈ as := by
          by_contra hno
          have := splitOnChar_of_not_mem c as hno
          rw [heq] at this
          simp at this
        rw [show ((a :: h) :: t0 :: ts).getLast? = (h :: t0 :: ts).getLast? by
          rw [List.getLast?_cons_cons, List.getLast?_cons_cons]]
        rw [← heq, ih]
        congr 2
        rw [List.reverse_cons, List.takeWhile_append]
        split
        · rename_i hcond
          exfalso
          have : as.reverse.takeWhile (fun x => x ≠ c) = as.reverse :=
            ( List.takeWhile_prefix _).eq_of_length hcond
          have := List.takeWhile_eq_self_iff.mp this c (List.mem_reverse.mpr hcas)
          simp at this
        · rfl

/-! ## Lemmas about the dict model -/

theorem dictLookup_dictInsert (d : Dict) (n v k : Str) :
    dictLookup (dictInsert d n v) k = if n = k then some v else dictLookup d k := by
  induction d with
  | nil =>
    simp [dictInsert, dictLookup]
  | cons p ps ih =>
    by_cases hpn : p.1 = n
    · rw [show dictInsert (p :: ps) n v = (n, v) :: ps by simp [dictInsert, hpn]]
      by_cases hnk : n = k
      · simp [dictLookup, hnk]
      · have hpk : ¬ p.1 = k := by rw [hpn]; exact hnk
        simp [dictLookup, hnk, hpk]
    · rw [show dictInsert (p :: ps) n v = p :: dictInsert ps n v by
        simp [dictInsert, hpn]]
      by_cases hpk : p.1 = k
      · have hnk : ¬ n = k := fun h => hpn (hpk.trans h.symm)
        simp [dictLookup, hpk, hnk]
      · simp [dictLookup, hpk, ih]

theorem mem_dictInsert (d : Dict) (n v : Str) (p : Str × Str) :
    p ∈ dictInsert d n v → p = (n, v) ∨ p ∈ d := by
  induction d with
  | nil => intro h; simp [dictInsert] at h; exact Or.inl h
  | cons q qs ih =>
    intro h
    by_cases hqn : q.1 = n
    · rw [show dictInsert (q :: qs) n v = (n, v) :: qs by simp [dictInsert, hqn]] at h
      rcases List.mem_cons.mp h with rfl | hmem
      · exact Or.inl rfl
      · exact Or.inr (List.mem_cons_of_mem _ hmem)
    · rw [show dictInsert (q :: qs) n v = q :: dictInsert qs n v by
        simp [dictInsert, hqn]] at h
      rcases List.mem_cons.mp h with rfl | hmem
      · exact Or.inr (List.mem_cons_self _ _)
      · rcases ih hmem with h1 | h2
        · exact Or.inl h1
        · exact Or.inr (List.mem_cons_of_mem _ h2)

theorem keys_dictInsert_of_mem (d : Dict) (n v : Str) :
    n ∈ d.map Prod.fst → (dictInsert d n v).map Prod.fst = d.map Prod.fst := by
  induction d with
  | nil => intro h; simp at h
  | cons q qs ih =>
    intro h
    by_cases hqn : q.1 = n
    · simp [dictInsert, hqn]
    · rw [List.map_cons] at h
      rcases List.mem_cons.mp h with h1 | h2
      · exact absurd h1.symm hqn
      · simp [dictInsert, hqn, ih h2]

theorem dictInsert_of_not_mem (d : Dict) (n v : Str) (h : n ∉ d.map Prod.fst) :
    dictInsert d n v = d ++ [(n, v)] := by
  induction d with
  | nil => rfl
  | cons q qs ih =>
    have hqn : ¬ q.1 = n := fun hq => h (by simp [hq])
    have hqs : n ∉ qs.map Prod.fst := fun hq => h (by simp [hq])
    simp [dictInsert, hqn, ih hqs]

theorem nodup_keys_dictInsert (d : Dict) (n v : Str)
    (h : (d.map Prod.fst).Nodup) : ((dictInsert d n v).map Prod.fst).Nodup := by
  by_cases hmem : n ∈ d.map Prod.fst
  · rw [keys_dictInsert_of_mem d n v hmem]; exact h
  · rw [dictInsert_of_not_mem d n v hmem]
    simp only [List.map_append, List.map_cons, List.map_nil]
    rw [List.nodup_append]
    exact ⟨h, List.nodup_singleton _, by
      intro x hx hx2
      simp at hx2
      exact hmem (hx2 ▸ hx)⟩

theorem dictLookup_eq_none_iff (d : Dict) (k : Str) :
    dictLookup d k = none ↔ k ∉ d.map Prod.fst := by
  induction d with
  | nil => simp [dictLookup]
  | cons p ps ih =>
    by_cases hpk : p.1 = k
    · simp [dictLookup, hpk]
    · have hkp : ¬ k = p.1 := fun h => hpk h.symm
      simp [dictLookup, hpk, hkp, ih]

/-! ## The bridge between the loop and its commit list -/

theorem parseLines_eq_commitsAux (ls : List Str) : ∀ files n c,
    parseLines files ls n c = (commitsAux ls n c).map (applyCommits files) := by
  induction ls with
  | nil =>
    intro files n c
    by_cases hn : n = [] <;>
      simp [parseLines, commitsAux, applyCommits, hn, Except.map, List.foldl]
  | cons line rest ih =>
    intro files n c
    by_cases hdelim : isDelim line
    · cases hex : extractName line with
      | none => simp [parseLines, commitsAux, hdelim, hex, Except.map]
      | some newName =>
        have hL : parseLines files (line :: rest) n c =
            parseLines (if n ≠ [] then dictInsert files n c else files)
              rest newName [] := by
          simp [parseLines, hdelim, hex]
        have hR : commitsAux (line :: rest) n c =
            (commitsAux rest newName []).map
              (fun cs => (if n ≠ [] then [(n, c)] else []) ++ cs) := by
          simp [commitsAux, hdelim, hex]
        rw [hL, hR, ih]
        cases hcs : commitsAux rest newName [] with
        | error e => simp [Except.map]
        | ok cs =>
          by_cases hn : n = []
          · simp [Except.map, hn]
          · simp [Except.map, hn, applyCommits, List.foldl_append, List.foldl_cons]
    · have hL : parseLines files (line :: rest) n c =
          parseLines files rest n (c ++ line ++ ['\n']) := by
        simp [parseLines, hdelim]
      have hR : commitsAux (line :: rest) n c =
          commitsAux rest n (c ++ line ++ ['\n']) := by
        simp [commitsAux, hdelim]
      rw [hL, hR]
      exact ih files n (c ++ line ++ ['\n'])

theorem parse_data_eq_commitsOf (files : Dict) (raw : Str) :
    parse_data files raw = (commitsOf raw).map (applyCommits files) :=
  parseLines_eq_commitsAux (pySplitLines raw) files [] []

/-! ## Lemmas about `applyCommits` -/

theorem dictLookup_applyCommits (cs : List (Str × Str)) : ∀ d k,
    dictLookup (applyCommits d cs) k =
      match cs.reverse.find? (fun p => p.1 = k) with
      | some p => some p.2
      | none => dictLookup d k := by
  induction cs with
  | nil => intro d k; rfl
  | cons q cs ih =>
    intro d k
    rw [show applyCommits d (q :: cs) = applyCommits (dictInsert d q.1 q.2) cs from rfl,
      ih, List.reverse_cons, List.find?_append]
    cases hfind : cs.reverse.find? (fun p => decide (p.1 = k)) with
    | some p => simp
    | none =>
      simp only [Option.none_or]
      rw [dictLookup_dictInsert]
      by_cases hqk : q.1 = k
      · simp [List.find?_cons, hqk]
      · simp [List.find?_cons, hqk]

theorem nodup_keys_applyCommits (cs : List (Str × Str)) : ∀ d : Dict,
    (d.map Prod.fst).Nodup → ((applyCommits d cs).map Prod.fst).Nodup := by
  induction cs with
  | nil => intro d h; exact h
  | cons q cs ih => intro d h; exact ih _ (nodup_keys_dictInsert d q.1 q.2 h)

theorem mem_applyCommits (cs : List (Str × Str)) : ∀ (d : Dict) (p : Str × Str),
    p ∈ applyCommits d cs → p ∈ cs ∨ p ∈ d := by
  induction cs with
  | nil => intro d p h; exact Or.inr h
  | cons q cs ih =>
    intro d p h
    rcases ih _ p h with h1 | h2
    · exact Or.inl (List.mem_cons_of_mem _ h1)
    · rcases mem_dictInsert d q.1 q.2 p h2 with h3 | h4
      · left; rw [h3, Prod.mk.eta]; exact List.mem_cons_self _ _
      · exact Or.inr h4

theorem mem_keys_dictInsert_self (d : Dict) (n v : Str) :
    n ∈ (dictInsert d n v).map Prod.fst := by
  by_cases h : n ∈ d.map Prod.fst
  · rw [keys_dictInsert_of_mem d n v h]; exact h
  · rw [dictInsert_of_not_mem d n v h]; simp

theorem mem_keys_dictInsert_of_mem (d : Dict) (n v k : Str)
    (h : k ∈ d.map Prod.fst) : k ∈ (dictInsert d n v).map Prod.fst := by
  by_cases hm : n ∈ d.map Prod.fst
  · rw [keys_dictInsert_of_mem d n v hm]; exact h
  · rw [dictInsert_of_not_mem d n v hm]; simp [h]

theorem mem_keys_applyCommits_of_mem_dict (cs : List (Str × Str)) :
    ∀ (d : Dict) (k : Str), k ∈ d.map Prod.fst →
      k ∈ (applyCommits d cs).map Prod.fst := by
  induction cs with
  | nil => intro d k h; exact h
  | cons q cs ih =>
    intro d k h
    exact ih _ k (mem_keys_dictInsert_of_mem d q.1 q.2 k h)

theorem mem_keys_applyCommits_of_mem (cs : List (Str × Str)) :
    ∀ (d : Dict) (k : Str), k ∈ cs.map Prod.fst →
      k ∈ (applyCommits d cs).map Prod.fst := by
  induction cs with
  | nil => intro d k h; cases h
  | cons q cs ih =>
    intro d k h
    rw [List.map_cons] at h
    rcases List.mem_cons.mp h with rfl | h2
    · exact mem_keys_applyCommits_of_mem_dict cs _ _ (mem_keys_dictInsert_self d q.1 q.2)
    · exact ih _ k h2

/-! ## Lemmas about the commit list -/

theorem commitsAux_cur_mem (ls : List Str) : ∀ n c cs,
    commitsAux ls n c = .ok cs → n ≠ [] → n ∈ cs.map Prod.fst := by
  induction ls with
  | nil =>
    intro n c cs h hn
    simp [commitsAux, hn] at h
    rw [← h]
    simp
  | cons line rest ih =>
    intro n c cs h hn
    by_cases hd : isDelim line
    · cases hex : extractName line with
      | none => simp [commitsAux, hd, hex] at h
      | some n' =>
        have hR : commitsAux (line :: rest) n c =
            (commitsAux rest n' []).map
              (fun cs => (if n ≠ [] then [(n, c)] else []) ++ cs) := by
          simp [commitsAux, hd, hex]
        rw [hR] at h
        cases hcs : commitsAux rest n' [] with
        | error e => rw [hcs] at h; simp [Except.map] at h
        | ok cs' =>
          rw [hcs] at h
          simp only [Except.map, Except.ok.injEq] at h
          rw [← h]
          simp [hn]
    · have hR : commitsAux (line :: rest) n c =
          commitsAux rest n (c ++ line ++ ['\n']) := by
        simp [commitsAux, hd]
      rw [hR] at h
      exact ih _ _ _ h hn

theorem commitsAux_mem_delimNames (ls : List Str) : ∀ n c cs k,
    commitsAux ls n c = .ok cs → k ≠ [] → k ∈ delimNames ls →
    k ∈ cs.map Prod.fst := by
  induction ls with
  | nil => intro n c cs k _ _ hk; simp [delimNames] at hk
  | cons line rest ih =>
    intro n c cs k h hk0 hk
    by_cases hd : isDelim line
    · cases hex : extractName line with
      | none => simp [commitsAux, hd, hex] at h
      | some n' =>
        have hnames : delimNames (line :: rest) = n' :: delimNames rest := by
          simp [delimNames, List.filterMap_cons, hd, hex]
        rw [hnames] at hk
        have hR : commitsAux (line :: rest) n c =
            (commitsAux rest n' []).map
              (fun cs => (if n ≠ [] then [(n, c)] else []) ++ cs) := by
          simp [commitsAux, hd, hex]
        rw [hR] at h
        cases hcs : commitsAux rest n' [] with
        | error e => rw [hcs] at h; simp [Except.map] at h
        | ok cs' =>
          rw [hcs] at h
          simp only [Except.map, Except.ok.injEq] at h
          rw [← h]
          rcases List.mem_cons.mp hk with rfl | h2
          · have := commitsAux_cur_mem rest k [] cs' hcs hk0
            simp [this]
          · have := ih n' [] cs' k hcs hk0 h2
            simp [this]
    · have hnames : delimNames (line :: rest) = delimNames rest := by
        simp [delimNames, List.filterMap_cons, hd]
      rw [hnames] at hk
      have hR : commitsAux (line :: rest) n c =
          commitsAux rest n (c ++ line ++ ['\n']) := by
        simp [commitsAux, hd]
      rw [hR] at h
      exact ih _ _ _ _ h hk0 hk

/-! ## Well-formedness of parse results -/

theorem extractName_wf (line : Str) (hnl : '\n' ∉ line) (nm : Str)
    (h : extractName line = some nm) : btChar ∉ nm ∧ '\n' ∉ nm := by
  have hmem : nm ∈ splitOnChar btChar line := List.get?_mem h
  exact ⟨not_mem_of_mem_splitOnChar _ _ nm hmem,
    fun hx => hnl (mem_of_mem_splitOnChar _ _ nm hmem _ hx)⟩

theorem contentWF_nil : ContentWF [] :=
  ⟨[], by simp, by simp⟩

theorem contentWF_append (c l : Str) (hc : ContentWF c)
    (hd : isDelim l = false) (hnl : '\n' ∉ l) :
    ContentWF (c ++ l ++ ['\n']) := by
  obtain ⟨cls, hall, rfl⟩ := hc
  refine ⟨cls ++ [l], ?_, ?_⟩
  · intro x hx
    rcases List.mem_append.mp hx with h1 | h2
    · exact hall x h1
    · simp at h2
      subst h2
      exact ⟨hd, hnl⟩
  · simp [List.map_append, List.flatten_append, List.append_assoc]

theorem no_newline_pySplitLines (s l : Str) (h : l ∈ pySplitLines s) :
    '\n' ∉ l := by
  have hmem : l ∈ splitOnChar '\n' s := by
    simp only [pySplitLines] at h
    split at h
    · exact (List.dropLast_sublist _).subset h
    · exact h
  exact not_mem_of_mem_splitOnChar _ _ l hmem

theorem commitsAux_entries_wf (ls : List Str) : ∀ n c cs,
    (∀ l ∈ ls, '\n' ∉ l) →
    ((btChar ∉ n ∧ '\n' ∉ n) ∨ n = []) →
    ContentWF c →
    commitsAux ls n c = .ok cs →
    ∀ p ∈ cs, NameWF p.1 ∧ ContentWF p.2 := by
  induction ls with
  | nil =>
    intro n c cs _ hn hc h p hp
    by_cases hne : n = []
    · simp [commitsAux, hne] at h
      subst h
      cases hp
    · simp [commitsAux, hne] at h
      subst h
      simp at hp
      rw [hp]
      exact ⟨⟨hne, (hn.resolve_right hne).1, (hn.resolve_right hne).2⟩, hc⟩
  | cons line rest ih =>
    intro n c cs hnl hn hc h p hp
    by_cases hd : isDelim line
    · cases hex : extractName line with
      | none => simp [commitsAux, hd, hex] at h
      | some n' =>
        have hR : commitsAux (line :: rest) n c =
            (commitsAux rest n' []).map
              (fun cs => (if n ≠ [] then [(n, c)] else []) ++ cs) := by
          simp [commitsAux, hd, hex]
        rw [hR] at h
        cases hcs : commitsAux rest n' [] with
        | error e => rw [hcs] at h; simp [Except.map] at h
        | ok cs' =>
          rw [hcs] at h
          simp only [Except.map, Except.ok.injEq] at h
          rw [← h] at hp
          have hn'wf : btChar ∉ n' ∧ '\n' ∉ n' :=
            extractName_wf line (hnl line (List.mem_cons_self _ _)) n' hex
          have hrest := ih n' [] cs'
            (fun l hl => hnl l (List.mem_cons_of_mem _ hl))
            (Or.inl hn'wf) contentWF_nil hcs
          rcases List.mem_append.mp hp with h1 | h2
          · by_cases hne : n = []
            · simp [hne] at h1
            · simp [hne] at h1
              rw [h1]
              exact ⟨⟨hne, (hn.resolve_right hne).1, (hn.resolve_right hne).2⟩, hc⟩
          · exact hrest p h2
    · have hR : commitsAux (line :: rest) n c =
          commitsAux rest n (c ++ line ++ ['\n']) := by
        simp [commitsAux, hd]
      rw [hR] at h
      exact ih n (c ++ line ++ ['\n']) cs
        (fun l hl => hnl l (List.mem_cons_of_mem _ hl)) hn
        (contentWF_append c line hc (by simpa using hd)
          (hnl line (List.mem_cons_self _ _))) h p hp

theorem parse_data_DictWF (raw : Str) (m : Dict)
    (h : parse_data [] raw = .ok m) : DictWF m := by
  rw [parse_data_eq_commitsOf] at h
  cases hcs : commitsOf raw with
  | error e => rw [hcs] at h; simp [Except.map] at h
  | ok cs =>
    rw [hcs] at h
    simp only [Except.map, Except.ok.injEq] at h
    have hwf := commitsAux_entries_wf (pySplitLines raw) [] [] cs
      (fun l hl => no_newline_pySplitLines raw l hl)
      (Or.inr rfl) contentWF_nil hcs
    rw [← h]
    constructor
    · exact nodup_keys_applyCommits cs [] (by simp)
    · intro p hp
      rcases mem_applyCommits cs [] p hp with h1 | h2
      · exact hwf p h1
      · cases h2

/-! ## Content shape consequences -/

theorem getLast?_flatten_lines (cls : List Str) (h : cls ≠ []) :
    ((cls.map (fun l => l ++ ['\n'])).flatten).getLast? = some '\n' := by
  induction cls with
  | nil => exact absurd rfl h
  | cons l ls ih =>
    cases ls with
    | nil => simp [List.getLast?_concat]
    | cons l' ls' =>
      rw [List.map_cons, List.flatten_cons, List.getLast?_append,
        ih (by simp)]
      rfl

theorem contentWF_last (c : Str) (hc : ContentWF c) :
    c = [] ∨ c.getLast? = some '\n' := by
  obtain ⟨cls, _, rfl⟩ := hc
  cases cls with
  | nil => exact Or.inl rfl
  | cons l ls => exact Or.inr (getLast?_flatten_lines (l :: ls) (by simp))

/-! ## Lines of a serialized mapping -/

theorem splitOnChar_flatten_lines (lines : List Str)
    (h : ∀ l ∈ lines, '\n' ∉ l) :
    splitOnChar '\n' ((lines.map (fun l => l ++ ['\n'])).flatten) =
      lines ++ [[]] := by
  induction lines with
  | nil => rfl
  | cons l ls ih =>
    rw [List.map_cons, List.flatten_cons,
      show (l ++ ['\n']) ++ (ls.map (fun l => l ++ ['\n'])).flatten =
        l ++ '\n' :: (ls.map (fun l => l ++ ['\n'])).flatten by simp,
      splitOnChar_append_cons '\n' l _ (h l (List.mem_cons_self _ _)),
      ih (fun x hx => h x (List.mem_cons_of_mem _ hx))]
    rfl

theorem pySplitLines_flatten_lines (lines : List Str)
    (h : ∀ l ∈ lines, '\n' ∉ l) :
    pySplitLines ((lines.map (fun l => l ++ ['\n'])).flatten) = lines := by
  simp only [pySplitLines, splitOnChar_flatten_lines lines h]
  simp [List.getLast?_concat, List.dropLast_concat]

theorem contentWF_eq_flatten (c : Str) (hc : ContentWF c) :
    c = (((pySplitLines c).map (fun l => l ++ ['\n'])).flatten) := by
  obtain ⟨cls, hall, rfl⟩ := hc
  rw [pySplitLines_flatten_lines cls (fun l hl => (hall l hl).2)]

theorem contentWF_lines (c : Str) (hc : ContentWF c) :
    ∀ l ∈ pySplitLines c, isDelim l = false ∧ '\n' ∉ l := by
  obtain ⟨cls, hall, rfl⟩ := hc
  rw [pySplitLines_flatten_lines cls (fun l hl => (hall l hl).2)]
  exact hall

theorem isDelim_delimLineFor (n : Str) : isDelim (delimLineFor n) = true := by
  have hpre : "### File:".data <+: "### File: ".data := by decide
  exact List.isPrefixOf_iff_prefix.mpr
    (hpre.trans (List.prefix_append _ _))

theorem no_newline_delimLineFor (n : Str) (h : '\n' ∉ n) :
    '\n' ∉ delimLineFor n := by
  intro hmem
  rcases List.mem_append.mp hmem with h1 | h2
  · rcases List.mem_append.mp h1 with ha | hb
    · exact absurd ha (by decide)
    · rcases List.mem_cons.mp hb with hc | hd
      · exact absurd hc (by decide)
      · exact h hd
  · rcases List.mem_cons.mp h2 with h3 | h4
    · exact absurd h3 (by decide)
    · cases h4

theorem extractName_delimLineFor (n : Str) (h : btChar ∉ n) :
    extractName (delimLineFor n) = some n := by
  unfold extractName delimLineFor
  rw [show "### File: ".data ++ btChar :: n ++ [btChar] =
      "### File: ".data ++ btChar :: (n ++ [btChar]) by simp,
    splitOnChar_append_cons btChar ("### File: ".data) _ (by decide),
    List.get?_cons_succ, List.get?_zero, head?_splitOnChar,
    List.takeWhile_append]
  split
  · simp [List.takeWhile_cons]
  · rename_i hcond
    exfalso
    apply hcond
    rw [List.takeWhile_eq_self_iff.mpr]
    intro x hx
    simp only [decide_eq_true_eq]
    exact fun hxc => h (hxc ▸ hx)

/-! ## Parsing a serialized mapping -/

theorem parseLines_skip_nondelim (cls : List Str) :
    ∀ (files : Dict) (rest : List Str) (n c : Str),
    (∀ l ∈ cls, isDelim l = false) →
    parseLines files (cls ++ rest) n c =
      parseLines files rest n
        (c ++ (cls.map (fun l => l ++ ['\n'])).flatten) := by
  induction cls with
  | nil => intro files rest n c _; simp
  | cons l cls ih =>
    intro files rest n c hall
    have hndl : isDelim l = false := hall l (List.mem_cons_self _ _)
    rw [List.cons_append,
      show parseLines files (l :: (cls ++ rest)) n c =
        parseLines files (cls ++ rest) n (c ++ l ++ ['\n']) by
          simp [parseLines, hndl],
      ih files rest n _ (fun x hx => hall x (List.mem_cons_of_mem _ hx))]
    congr 1
    simp [List.append_assoc]

theorem parseLines_serialized (entries : List (Str × Str)) :
    ∀ (files : Dict) (n c : Str),
    (∀ p ∈ entries, NameWF p.1 ∧ ContentWF p.2) →
    n ≠ [] →
    parseLines files ((entries.map entryLines).flatten) n c =
      .ok (applyCommits (dictInsert files n c) entries) := by
  induction entries with
  | nil =>
    intro files n c _ hn
    simp [parseLines, hn, applyCommits]
  | cons p rest ih =>
    intro files n c hwf hn
    obtain ⟨⟨hne, hbt, _⟩, hcwf⟩ := hwf p (List.mem_cons_self _ _)
    rw [List.map_cons, List.flatten_cons,
      show entryLines p = delimLineFor p.1 :: pySplitLines p.2 from rfl,
      List.cons_append,
      show parseLines files
          (delimLineFor p.1 ::
            (pySplitLines p.2 ++ (rest.map entryLines).flatten)) n c =
        parseLines (dictInsert files n c)
          (pySplitLines p.2 ++ (rest.map entryLines).flatten) p.1 [] by
          simp [parseLines, isDelim_delimLineFor,
            extractName_delimLineFor p.1 hbt, hn],
      parseLines_skip_nondelim _ _ _ _ _
        (fun l hl => (contentWF_lines p.2 hcwf l hl).1),
      show ([] : Str) ++
          ((pySplitLines p.2).map (fun l => l ++ ['\n'])).flatten = p.2 by
        rw [List.nil_append, ← contentWF_eq_flatten p.2 hcwf],
      ih (dictInsert files n c) p.1 p.2
        (fun q hq => hwf q (List.mem_cons_of_mem _ hq)) hne]
    rfl

theorem applyCommits_of_disjoint (cs : List (Str × Str)) : ∀ d : Dict,
    (cs.map Prod.fst).Nodup →
    (∀ k ∈ cs.map Prod.fst, k ∉ d.map Prod.fst) →
    applyCommits d cs = d ++ cs := by
  induction cs with
  | nil => intro d _ _; simp [applyCommits]
  | cons q cs ih =>
    intro d hnodup hdisj
    rw [List.map_cons] at hnodup hdisj
    have hq : q.1 ∉ d.map Prod.fst := hdisj q.1 (List.mem_cons_self _ _)
    rw [show applyCommits d (q :: cs) =
        applyCommits (dictInsert d q.1 q.2) cs from rfl,
      dictInsert_of_not_mem d q.1 q.2 hq, Prod.mk.eta,
      ih (d ++ [q]) (List.nodup_cons.mp hnodup).2 ?_]
    · simp
    · intro k hk
      rw [List.map_append]
      intro hmem
      rcases List.mem_append.mp hmem with h1 | h2
      · exact hdisj k (List.mem_cons_of_mem _ hk) h1
      · simp at h2
        exact (List.nodup_cons.mp hnodup).1 (h2 ▸ hk)

theorem applyCommits_nil_of_nodup (m : Dict)
    (h : (m.map Prod.fst).Nodup) : applyCommits [] m = m := by
  rw [applyCommits_of_disjoint m [] h (by simp)]
  simp

theorem pySplitLines_serializeFiles (m : Dict)
    (hm : ∀ p ∈ m, ContentWF p.2) (hnames : ∀ p ∈ m, '\n' ∉ p.1) :
    pySplitLines (serializeFiles m) = (m.map entryLines).flatten := by
  have hchars : serializeFiles m =
      (((m.map entryLines).flatten).map (fun l => l ++ ['\n'])).flatten := by
    induction m with
    | nil => rfl
    | cons p rest ih =>
      rw [show serializeFiles (p :: rest) =
          ("### File: ".data ++ btChar :: p.1 ++ btChar :: '\n' :: p.2) ++
            serializeFiles rest from rfl,
        ih (fun q hq => hm q (List.mem_cons_of_mem _ hq))
          (fun q hq => hnames q (List.mem_cons_of_mem _ hq))]
      rw [List.map_cons, List.flatten_cons, List.map_append,
        List.flatten_append]
      congr 1
      rw [show entryLines p = delimLineFor p.1 :: pySplitLines p.2 from rfl,
        List.map_cons, List.flatten_cons]
      rw [← contentWF_eq_flatten p.2 (hm p (List.mem_cons_self _ _))]
      simp [delimLineFor, List.append_assoc]
  rw [hchars]
  apply pySplitLines_flatten_lines
  intro l hl
  rcases List.mem_flatten.mp hl with ⟨ls, hls, hlmem⟩
  rcases List.mem_map.mp hls with ⟨p, hp, rfl⟩
  rcases List.mem_cons.mp hlmem with rfl | h2
  · exact no_newline_delimLineFor p.1 (hnames p hp)
  · exact no_newline_pySplitLines p.2 l h2

theorem parse_serializeFiles (m : Dict) (hwf : DictWF m) :
    parse_data [] (serializeFiles m) = .ok m := by
  obtain ⟨hnodup, hentries⟩ := hwf
  cases m with
  | nil => rfl
  | cons p rest =>
    obtain ⟨⟨hne, hbt, _⟩, _⟩ := hentries p (List.mem_cons_self _ _)
    unfold parse_data
    rw [pySplitLines_serializeFiles (p :: rest)
        (fun q hq => (hentries q hq).2) (fun q hq => (hentries q hq).1.2.2),
      List.map_cons, List.flatten_cons,
      show entryLines p = delimLineFor p.1 :: pySplitLines p.2 from rfl,
      List.cons_append,
      show parseLines []
          (delimLineFor p.1 ::
            (pySplitLines p.2 ++ (rest.map entryLines).flatten)) [] [] =
        parseLines ([] : Dict)
          (pySplitLines p.2 ++ (rest.map entryLines).flatten) p.1 [] by
          simp [parseLines, isDelim_delimLineFor,
            extractName_delimLineFor p.1 hbt],
      parseLines_skip_nondelim _ _ _ _ _
        (fun l hl =>
          (contentWF_lines p.2 (hentries p (List.mem_cons_self _ _)).2 l hl).1),
      show ([] : Str) ++
          ((pySplitLines p.2).map (fun l => l ++ ['\n'])).flatten = p.2 by
        rw [List.nil_append,
          ← contentWF_eq_flatten p.2 (hentries p (List.mem_cons_self _ _)).2],
      parseLines_serialized rest [] p.1 p.2
        (fun q hq => hentries q (List.mem_cons_of_mem _ hq)) hne,
      show applyCommits (dictInsert [] p.1 p.2) rest =
        applyCommits [] (p :: rest) from rfl,
      applyCommits_nil_of_nodup _ hnodup]

/-! ## Equivalence with the specification-side parser -/

theorem specCommitsAux_eq_commitsAux (ls : List Str)
    (h : ∀ l ∈ ls, isDelim l = true → 2 ≤ l.count btChar) : ∀ n c,
    specCommitsAux ls n c = commitsAux ls n c := by
  induction ls with
  | nil => intro n c; rfl
  | cons line rest ih =>
    intro n c
    have ihrest := ih (fun l hl hd => h l (List.mem_cons_of_mem _ hl) hd)
    by_cases hd : isDelim line
    · have h2 := h line (List.mem_cons_self _ _) hd
      have hbt : btChar ∈ line := (List.count_pos_iff).mp (by omega)
      have hex : extractName line =
          some (((line.dropWhile (fun x => x ≠ btChar)).tail).takeWhile
            (fun x => x ≠ btChar)) := get?_one_splitOnChar btChar line hbt
      have hspec : specName line =
          .ok (((line.dropWhile (fun x => x ≠ btChar)).tail).takeWhile
            (fun x => x ≠ btChar)) := by
        simp [specName, h2]
      simp [specCommitsAux, commitsAux, hd, hex, hspec, ihrest]
    · simp [specCommitsAux, commitsAux, hd, ihrest]

/-! ## The file-type extraction -/

theorem afterLastDot_eq_reverse_takeWhile (nm : Str) :
    afterLastDot nm = (nm.reverse.takeWhile (fun x => x ≠ '.')).reverse := by
  unfold afterLastDot
  split
  · rfl
  · rename_i hmem
    rw [List.takeWhile_eq_self_iff.mpr, List.reverse_reverse]
    intro x hx
    simp only [decide_eq_true_eq]
    exact fun hxc => hmem (hxc ▸ List.mem_reverse.mp hx)

theorem getLastD_splitOnChar_dot (nm : Str) :
    (splitOnChar '.' nm).getLastD [] = afterLastDot nm := by
  rw [List.getLastD_eq_getLast?, getLast?_splitOnChar,
    afterLastDot_eq_reverse_takeWhile]
  rfl

/-! ## Content irrelevance before the first delimiter -/

theorem commitsAux_content_irrel (ls : List Str) : ∀ c c',
    commitsAux ls [] c = commitsAux ls [] c' := by
  induction ls with
  | nil => intro c c'; rfl
  | cons line rest ih =>
    intro c c'
    by_cases hd : isDelim line
    · simp [commitsAux, hd]
    · simp only [commitsAux, hd, if_false, Bool.false_eq_true]
      exact ih _ _

theorem commitsAux_drop_nondelim (pre : List Str)
    (h : ∀ l ∈ pre, isDelim l = false) : ∀ (ls : List Str) (c : Str),
    commitsAux (pre ++ ls) [] c = commitsAux ls [] [] := by
  induction pre with
  | nil => intro ls c; exact commitsAux_content_irrel ls c []
  | cons p pre ih =>
    intro ls c
    have hnd : isDelim p = false := h p (List.mem_cons_self _ _)
    rw [List.cons_append,
      show commitsAux (p :: (pre ++ ls)) [] c =
        commitsAux (pre ++ ls) [] (c ++ p ++ ['\n']) by
          simp [commitsAux, hnd]]
    exact ih (fun l hl => h l (List.mem_cons_of_mem _ hl)) ls _

/-! ## Step lemmas and a counting helper -/

theorem parseLines_cons_delim (files : Dict) (line : Str) (rest : List Str)
    (n c nm : Str) (hd : isDelim line = true)
    (hex : extractName line = some nm) :
    parseLines files (line :: rest) n c =
      parseLines (if n ≠ [] then dictInsert files n c else files) rest nm [] := by
  simp [parseLines, hd, hex]

theorem parseLines_cons_delim_err (files : Dict) (line : Str)
    (rest : List Str) (n c : Str) (hd : isDelim line = true)
    (hex : extractName line = none) :
    parseLines files (line :: rest) n c = .error .malformedDelimiter := by
  simp [parseLines, hd, hex]

theorem count_eq_one_of_nodup_of_mem (l : List Str) (a : Str)
    (hn : l.Nodup) (hm : a ∈ l) : l.count a = 1 := by
  induction l with
  | nil => cases hm
  | cons x xs ih =>
    rw [List.count_cons]
    rcases List.mem_cons.mp hm with rfl | h2
    · have h0 : xs.count a = 0 := by
        rw [List.count_eq_zero]
        exact (List.nodup_cons.mp hn).1
      simp [h0]
    · have hx : ¬ x = a := fun h => (List.nodup_cons.mp hn).1 (h ▸ h2)
      rw [ih (List.nodup_cons.mp hn).2 h2]
      simp [hx]

/-! ## The claims -/

/-- C1: parse segments the input line by line: a line starting with
`### File:` begins a new file named by the text between the first and
second backticks (provided every delimiter line carries two backticks,
which is when that description applies), every non-delimiter line is
appended verbatim followed by one newline, and in particular the input
``### File: `a/b.txt` ⏎ x ⏎ y`` parses to `{a/b.txt ↦ "x\ny\n"}`. -/
theorem c1_delimiter_segmentation :
    (parse_data [] ("### File: `a/b.txt`\nx\ny".data) =
      .ok [("a/b.txt".data, "x\ny\n".data)]) ∧
    ∀ raw : Str,
      (∀ l ∈ pySplitLines raw, isDelim l = true → 2 ≤ l.count btChar) →
      parse_data [] raw = specParse raw := by
  constructor
  · decide
  · intro raw h
    rw [parse_data_eq_commitsOf]
    unfold specParse commitsOf
    rw [specCommitsAux_eq_commitsAux (pySplitLines raw) h]

theorem c1_delimiter_segmentation_witness :
    parse_data [] ("### File: `a/b.txt`\nx\ny".data) =
      specParse ("### File: `a/b.txt`\nx\ny".data) :=
  c1_delimiter_segmentation.2 ("### File: `a/b.txt`\nx\ny".data) (by decide)

/-- C2 (counterexample): the claim says a delimiter line with exactly
one backtick fails; in the code `line.split("`")[1]` succeeds there,
taking the text after the backtick as the name. -/
theorem c2_single_backtick_counterexample :
    ("### File: `abc".data).count btChar = 1 ∧
    isDelim ("### File: `abc".data) = true ∧
    parse_data [] ("### File: `abc".data) = .ok [("abc".data, [])] := by
  decide

/-- C2 (amended): a delimiter line makes parse fail with the (modelled,
catchable) MalformedDelimiter error exactly when it contains zero
backtick characters; with at least one backtick parsing succeeds. -/
theorem c2_failure_iff_no_backtick (line : Str)
    (hd : isDelim line = true) (hnl : '\n' ∉ line) :
    (btChar ∉ line → parse_data [] line = .error .malformedDelimiter) ∧
    (btChar ∈ line → ∃ m, parse_data [] line = .ok m) := by
  have hne : line ≠ [] := by
    intro h
    rw [h] at hd
    exact absurd hd (by decide)
  have hlines : pySplitLines line = [line] := by
    unfold pySplitLines
    rw [splitOnChar_of_not_mem '\n' line hnl]
    simp [hne]
  constructor
  · intro hbt
    have hex : extractName line = none := by
      unfold extractName
      rw [splitOnChar_of_not_mem btChar line hbt]
      rfl
    rw [show parse_data [] line = parseLines [] (pySplitLines line) [] []
      from rfl, hlines]
    simp [parseLines, hd, hex]
  · intro hbt
    have hex : extractName line =
        some (((line.dropWhile (fun x => x ≠ btChar)).tail).takeWhile
          (fun x => x ≠ btChar)) := get?_one_splitOnChar btChar line hbt
    rw [show parse_data [] line = parseLines [] (pySplitLines line) [] []
      from rfl, hlines, parseLines_cons_delim [] line [] [] [] _ hd hex]
    exact ⟨_, rfl⟩

theorem c2_failure_iff_no_backtick_witness :
    (parse_data [] ("### File: nobt".data) = .error .malformedDelimiter) ∧
    (∃ m, parse_data [] ("### File: `one".data) = .ok m) :=
  ⟨(c2_failure_iff_no_backtick ("### File: nobt".data)
      (by decide) (by decide)).1 (by decide),
   (c2_failure_iff_no_backtick ("### File: `one".data)
      (by decide) (by decide)).2 (by decide)⟩

/-- C3 (counterexample): the claim says a segment with empty extracted
name is stored under the empty-string key; in the code the commit is
guarded by Python truthiness of the name, so the segment is dropped:
here the delimiter extracts the empty name, yet the result is empty. -/
theorem c3_empty_name_counterexample :
    extractName ("### File: ``".data) = some [] ∧
    parse_data [] ("### File: ``\nx".data) = .ok [] ∧
    dictLookup ([] : Dict) ([] : Str) = none := by
  decide

/-- C3 (amended): a delimiter line with empty extracted name is
accepted without error, but its segment is discarded: the empty string
never occurs as a key of a parse result started from a fresh state. -/
theorem c3_empty_name_discarded :
    (parse_data [] ("### File: ``\nx".data) = .ok []) ∧
    ∀ (raw : Str) (m : Dict), parse_data [] raw = .ok m →
      dictLookup m [] = none := by
  constructor
  · decide
  · intro raw m h
    have hwf := parse_data_DictWF raw m h
    rw [dictLookup_eq_none_iff]
    intro hmem
    rcases List.mem_map.mp hmem with ⟨p, hp, hp1⟩
    exact (hwf.2 p hp).1.1 hp1

theorem c3_empty_name_discarded_witness :
    dictLookup [("a".data, "x\n".data)] [] = none :=
  c3_empty_name_discarded.2 ("### File: `a`\nx".data)
    [("a".data, "x\n".data)] (by decide)

/-- C4 (counterexample): the claim quantifies over all duplicated
extracted names; for the (empty) name extracted by both delimiter lines
below the final mapping contains zero entries, not exactly one. -/
theorem c4_duplicate_name_counterexample :
    delimNames (pySplitLines ("### File: ``\n### File: ``".data)) =
      [[], []] ∧
    parse_data [] ("### File: ``\n### File: ``".data) = .ok [] ∧
    (([] : Dict).map Prod.fst).count [] = 0 := by
  decide

/-- C4 (amended): for every input in which two or more delimiter lines
extract the same non-empty file name, the final mapping contains
exactly one entry for that name, whose content is the one committed at
the last occurrence (last-write-wins). -/
theorem c4_last_write_wins : ∀ (raw : Str) (m : Dict) (name : Str),
    parse_data [] raw = .ok m → name ≠ [] →
    2 ≤ (delimNames (pySplitLines raw)).count name →
    ∃ cs, commitsOf raw = .ok cs ∧
      (m.map Prod.fst).count name = 1 ∧
      dictLookup m name =
        (cs.reverse.find? (fun p => p.1 = name)).map Prod.snd := by
  intro raw m name h hne hcount
  rw [parse_data_eq_commitsOf] at h
  cases hcs : commitsOf raw with
  | error e => rw [hcs] at h; simp [Except.map] at h
  | ok cs =>
    rw [hcs] at h
    simp only [Except.map, Except.ok.injEq] at h
    subst h
    have hcs' : commitsAux (pySplitLines raw) [] [] = .ok cs := hcs
    have hmemdn : name ∈ delimNames (pySplitLines raw) := by
      have hpos : 0 < (delimNames (pySplitLines raw)).count name := by omega
      exact List.count_pos_iff.mp hpos
    have hmemcs : name ∈ cs.map Prod.fst :=
      commitsAux_mem_delimNames (pySplitLines raw) [] [] cs name hcs' hne hmemdn
    refine ⟨cs, rfl, ?_, ?_⟩
    · exact count_eq_one_of_nodup_of_mem _ name
        (nodup_keys_applyCommits cs [] (by simp))
        (mem_keys_applyCommits_of_mem cs [] name hmemcs)
    · rw [dictLookup_applyCommits]
      have hsome : (cs.reverse.find? (fun p => p.1 = name)).isSome := by
        rw [List.find?_isSome]
        rcases List.mem_map.mp hmemcs with ⟨p, hp, hp1⟩
        exact ⟨p, List.mem_reverse.mpr hp, by simp [hp1]⟩
      cases hfind : cs.reverse.find? (fun p => p.1 = name) with
      | none => rw [hfind] at hsome; simp at hsome
      | some q => simp

theorem c4_last_write_wins_witness :
    ∃ cs, commitsOf ("### File: `a`\nx\n### File: `a`\ny".data) = .ok cs ∧
      (([("a".data, "y\n".data)] : Dict).map Prod.fst).count ("a".data) = 1 ∧
      dictLookup [("a".data, "y\n".data)] ("a".data) =
        (cs.reverse.find? (fun p => p.1 = "a".data)).map Prod.snd :=
  c4_last_write_wins ("### File: `a`\nx\n### File: `a`\ny".data)
    [("a".data, "y\n".data)] ("a".data) (by decide) (by decide) (by decide)

/-- C5: lines before the first delimiter never contribute: the empty
input parses to the empty mapping, an input with no delimiter lines
parses to the empty mapping, and parsing an input whose lines start
with a delimiter-free prefix equals parsing from the remaining lines
alone. -/
theorem c5_prefix_discarded :
    (parse_data [] ("".data) = .ok []) ∧
    (∀ raw : Str, (∀ l ∈ pySplitLines raw, isDelim l = false) →
      parse_data [] raw = .ok []) ∧
    (∀ (raw : Str) (pre rest : List Str),
      pySplitLines raw = pre ++ rest →
      (∀ l ∈ pre, isDelim l = false) →
      parse_data [] raw = parseLines [] rest [] []) := by
  refine ⟨by decide, ?_, ?_⟩
  · intro raw h
    rw [show parse_data [] raw = parseLines [] (pySplitLines raw) [] []
      from rfl, parseLines_eq_commitsAux]
    have hdrop := commitsAux_drop_nondelim (pySplitLines raw) h [] []
    rw [List.append_nil] at hdrop
    rw [hdrop]
    rfl
  · intro raw pre rest heq hpre
    rw [show parse_data [] raw = parseLines [] (pySplitLines raw) [] []
      from rfl, heq, parseLines_eq_commitsAux,
      commitsAux_drop_nondelim pre hpre rest [],
      ← parseLines_eq_commitsAux]

theorem c5_prefix_discarded_witness :
    (parse_data [] ("hello\nworld".data) = .ok []) ∧
    (parse_data [] ("pre\n### File: `a`\nx".data) =
      parseLines [] ["### File: `a`".data, "x".data] [] []) :=
  ⟨c5_prefix_discarded.2.1 ("hello\nworld".data) (by decide),
   c5_prefix_discarded.2.2 ("pre\n### File: `a`\nx".data) ["pre".data]
     ["### File: `a`".data, "x".data] (by decide) (by decide)⟩

/-- C6: `get_file_types` returns the deduplicated, unordered set of the
substrings after each name's last dot (the whole name when it has no
dot), and on `["a.py","b.py","c.txt","README"]` it returns
`{"py","txt","README"}`. -/
theorem c6_file_types :
    (∀ files : Dict, get_file_types files =
      (files.map (fun p => afterLastDot p.1)).toFinset) ∧
    get_file_types [("a.py".data, []), ("b.py".data, []),
        ("c.txt".data, []), ("README".data, [])] =
      {"py".data, "txt".data, "README".data} := by
  constructor
  · intro files
    unfold get_file_types
    congr 1
    exact List.map_congr_left (fun p _ => getLastD_splitOnChar_dot p.1)
  · decide

/-- C7: round-trip: serializing every entry of a parse result back into
the delimiter wire format and parsing again reproduces exactly the same
mapping. -/
theorem c7_roundtrip : ∀ (raw : Str) (m : Dict),
    parse_data [] raw = .ok m →
    parse_data [] (serializeFiles m) = .ok m :=
  fun raw m h => parse_serializeFiles m (parse_data_DictWF raw m h)

theorem c7_roundtrip_witness :
    parse_data [] (serializeFiles [("a/b.txt".data, "x\ny\n".data)]) =
      .ok [("a/b.txt".data, "x\ny\n".data)] :=
  c7_roundtrip ("### File: `a/b.txt`\nx\ny".data)
    [("a/b.txt".data, "x\ny\n".data)] (by decide)

/-- C8: building an archive from a selection containing a name absent
from the files mapping fails with the (modelled, caught-at-the-boundary)
ContractViolation error and produces no archive entries. -/
theorem c8_missing_name (files : Dict) (sel : List Str) (name : Str)
    (hmem : name ∈ sel) (hfind : dictLookup files name = none) :
    create_zip_in_memory files sel = .error .contractViolation := by
  induction sel with
  | nil => cases hmem
  | cons s rest ih =>
    rcases List.mem_cons.mp hmem with rfl | h2
    · show zipEntries files (name :: rest) = _
      unfold zipEntries
      rw [hfind]
    · show zipEntries files (s :: rest) = _
      unfold zipEntries
      cases hs : dictLookup files s with
      | none => rfl
      | some c =>
        have hrest : zipEntries files rest = .error .contractViolation :=
          ih h2
        rw [hrest]
        rfl

theorem c8_missing_name_witness :
    create_zip_in_memory [("a.txt".data, "hi".data)] ["missing.txt".data] =
      .error .contractViolation :=
  c8_missing_name [("a.txt".data, "hi".data)] ["missing.txt".data]
    ("missing.txt".data) (by decide) (by decide)

/-- C9 (counterexample): the claim says parsing t2 after t1 against the
same core state equals parsing t2 against a fresh state; but
`parse_data` updates the existing `self.files` dict without clearing
it, so an entry of t1 survives a second parse of the empty input. -/
theorem c9_stateful_counterexample :
    parse_data [] ("### File: `a`\nx".data) = .ok [("a".data, "x\n".data)] ∧
    parse_data [("a".data, "x\n".data)] ("".data) =
      .ok [("a".data, "x\n".data)] ∧
    parse_data [] ("".data) = .ok [] ∧
    ([("a".data, "x\n".data)] : Dict) ≠ [] := by
  decide

/-- C9 (amended): each call of `parse_data` applies an input-determined
sequence of commits to the mapping it starts from; hence the result
depends only on the input exactly when the starting mapping is fresh,
which the presentation layer ensures by constructing a new
`FileManager` per interaction, while on a reused state entries of
earlier calls persist unless overwritten. -/
theorem c9_parse_applies_commits : ∀ (files : Dict) (raw : Str),
    parse_data files raw = (commitsOf raw).map (applyCommits files) :=
  fun files raw => parse_data_eq_commitsOf files raw

/-- C10: every content value of a parse result is either empty or ends
with a newline character, because each contributing line is appended
together with a trailing newline. -/
theorem c10_trailing_newline : ∀ (raw : Str) (m : Dict) (p : Str × Str),
    parse_data [] raw = .ok m → p ∈ m →
    p.2 = [] ∨ p.2.getLast? = some '\n' := by
  intro raw m p h hp
  exact contentWF_last p.2 ((parse_data_DictWF raw m h).2 p hp).2

theorem c10_trailing_newline_witness :
    (("x\n".data : Str) = [] ∨ ("x\n".data).getLast? = some '\n') :=
  c10_trailing_newline ("### File: `a`\nx".data) [("a".data, "x\n".data)]
    ("a".data, "x\n".data) (by decide) (by decide)

end App01
